import Mathlib

/-!
Verification of the value-resolution and scalar-representation core of the
`juniper` repository.

The development shallowly embeds:

* the custom scalar value `MyScalarValue` and its serde decoding visitor
  `MyScalarValueVisitor` from
  `integration_tests/juniper_tests/src/custom_scalar.rs`;
* the `FromInputValue` conversions for `Vec<T>` and `[T; N]`, and the list
  resolvers `resolve_into_list` / `resolve_into_list_async` from
  `juniper/src/types/containers.rs`.

Machine integers are embedded as `Int`/`Nat` with explicit wrap-around at the
places where the Rust source performs an `as` cast.  The IEEE-754 `f64` type
appears in the source only as an opaque payload (`MyScalarValue::Float`) and
through the conversions `u64 as f64` and `f64::from(i32)`; it is embedded as a
type parameter `F` together with those two conversion functions, which the
claims never need to interpret.
-/

namespace Juniper

/-- Scalar representation from `custom_scalar.rs`:
`enum MyScalarValue { Int(i32), Long(i64), Float(f64), String(String), Boolean(bool) }`.
The `f64` payload type is the parameter `F`. -/
inductive MyScalarValue (F : Type) where
  | Int (i : Int)
  | Long (i : Int)
  | Float (f : F)
  | String (s : String)
  | Boolean (b : Bool)
deriving DecidableEq

/-- Value of `i32::max_value()`. -/
def i32Max : Int := 2147483647

/-- Value of `i32::min_value()`. -/
def i32Min : Int := -2147483648

/-- Value of `i64::max_value() as u64`. -/
def i64MaxNat : Nat := 9223372036854775807

/-- Rust truncating cast `v as i32` on an `i64` operand: two's-complement
wrap-around into the signed 32-bit range. -/
def i64AsI32 (v : Int) : Int := (v + 2 ^ 31).emod (2 ^ 32) - 2 ^ 31

/-- Rust cast `v as i32` on a `u32` operand. -/
def u32AsI32 (v : Nat) : Int := if v < 2 ^ 31 then (v : Int) else (v : Int) - 2 ^ 32

/-- Rust cast `v as i64` on a `u64` operand. -/
def u64AsI64 (v : Nat) : Int := if v < 2 ^ 63 then (v : Int) else (v : Int) - 2 ^ 64

namespace MyScalarValueVisitor

variable {F : Type}

/-- Visitor case `visit_bool` (every visitor case in the source returns `Ok`,
so the `Result` wrapper is dropped from the embedding). -/
def visit_bool (b : Bool) : MyScalarValue F := .Boolean b

/-- Visitor case `visit_i32`. -/
def visit_i32 (v : Int) : MyScalarValue F := .Int v

/-- Visitor case `visit_i64`: `if value <= i64::from(i32::max_value())` then
`self.visit_i32(value as i32)` else `Ok(MyScalarValue::Long(value))`. -/
def visit_i64 (v : Int) : MyScalarValue F :=
  if v ≤ i32Max then visit_i32 (i64AsI32 v) else .Long v

/-- Visitor case `visit_u64`: values within the signed 64-bit range re-dispatch
to `visit_i64 (value as i64)`; larger values decode as
`MyScalarValue::Float(value as f64)`, with the cast `u64 as f64` embedded as
the parameter `u64ToF64`. -/
def visit_u64 (u64ToF64 : Nat → F) (v : Nat) : MyScalarValue F :=
  if v ≤ i64MaxNat then visit_i64 (u64AsI64 v) else .Float (u64ToF64 v)

/-- Visitor case `visit_u32`: values within the signed 32-bit range re-dispatch
to `visit_i32 (value as i32)`; larger values re-dispatch to `visit_u64`. -/
def visit_u32 (u64ToF64 : Nat → F) (v : Nat) : MyScalarValue F :=
  if v ≤ 2147483647 then visit_i32 (u32AsI32 v) else visit_u64 u64ToF64 v

/-- Visitor case `visit_f64`. -/
def visit_f64 (f : F) : MyScalarValue F := .Float f

/-- Visitor case `visit_string` (`visit_str` delegates to it). -/
def visit_string (s : String) : MyScalarValue F := .String s

end MyScalarValueVisitor

variable {F : Type}

/-- Accessor `as_int` of `impl ScalarValue for MyScalarValue`. -/
def as_int : MyScalarValue F → Option Int
  | .Int i => some i
  | _ => none

/-- Accessor `as_string`. -/
def as_string : MyScalarValue F → Option String
  | .String s => some s
  | _ => none

/-- Consuming accessor `into_string`. -/
def into_string : MyScalarValue F → Option String
  | .String s => some s
  | _ => none

/-- Borrowing accessor `as_str` (the borrowed `&str` is embedded as the
string value itself). -/
def as_str : MyScalarValue F → Option String
  | .String s => some s
  | _ => none

/-- Accessor `as_float`: `Int(i)` widens through `f64::from(*i)` (embedded as
the parameter `i32ToF64`), `Float(f)` is returned as is, every other variant
yields `None`. -/
def as_float (i32ToF64 : Int → F) : MyScalarValue F → Option F
  | .Int i => some (i32ToF64 i)
  | .Float f => some f
  | _ => none

/-- Accessor `as_boolean`. -/
def as_boolean : MyScalarValue F → Option Bool
  | .Boolean b => some b
  | _ => none

open MyScalarValueVisitor

/-- Modelled from the spec: the recursive input tree of §3
(`Null | Scalar | Enum | List | Object | Variable`).  Its defining module
(`juniper/src/ast.rs`) is not among the provided sources; the `Spanning`
position metadata that the source wraps around list and object items is
dropped, as `containers.rs` always unwraps it through `i.item`. -/
inductive InputValue (S : Type) where
  | Null
  | Scalar (s : S)
  | Enum (name : String)
  | List (items : List (InputValue S))
  | Object (fields : List (String × InputValue S))
  | Variable (name : String)

variable {S T : Type}

/-- Discriminator used to state the claims about non-`List` inputs. -/
def isListInput : InputValue S → Bool
  | .List _ => true
  | _ => false

/-- `FromInputValue for Vec<T>::from_input_value` from `containers.rs`:
on a `List`, convert every element through `filter_map` and succeed only when
the number of successful conversions equals the element count; on any other
input, convert it as a single element and wrap it in a one-element vector.
The generic element conversion `<T as FromInputValue>::from_input_value`
(`i.item.convert()`) is the parameter `convert`. -/
def vecFromInputValue (convert : InputValue S → Option T) : InputValue S → Option (List T)
  | .List ls =>
      let v := ls.filterMap convert
      if v.length = ls.length then some v else none
  | other => (convert other).map (fun e => [e])

/-- Fill loop of `FromInputValue for [T; N]::from_input_value`: take items from
the (already filtered) converted-element iterator until the `N` slots are
full — failing when the iterator runs out early (`There is not enough items`)
— and then fail if an extra item remains (`There is too much items`).  The
fixed-size array is embedded as a list of length `N`. -/
def fillArray : Nat → List T → Option (List T)
  | 0, [] => some []
  | 0, _ :: _ => none
  | _ + 1, [] => none
  | n + 1, x :: xs => (fillArray n xs).map (x :: ·)

/-- `FromInputValue for [T; N]::from_input_value` from `containers.rs`:
on a `List`, feed `ls.iter().filter_map(|i| i.item.convert())` into the fill
loop; on any other input, convert it as a single element, succeeding only when
`N == 1`. -/
def arrayFromInputValue (N : Nat) (convert : InputValue S → Option T) :
    InputValue S → Option (List T)
  | .List ls => fillArray N (ls.filterMap convert)
  | other => (convert other).bind (fun e => if N = 1 then some [e] else none)

/-- Elementwise all-or-nothing conversion, used to state the claims:
`convertAll convert l = some xs` holds exactly when every element of `l`
converts successfully, with `xs` collecting the results in order. -/
def convertAll (convert : α → Option β) : List α → Option (List β)
  | [] => some []
  | x :: xs =>
      match convert x with
      | none => none
      | some y => (convertAll convert xs).map (y :: ·)

/-- Concrete element conversion used on concrete inputs: only `Scalar` input
values convert. -/
def scalarOnly : InputValue Unit → Option Unit
  | .Scalar s => some s
  | _ => none

/-- Modelled from the spec: the output tree of §3
(`Null | Scalar | List | Object`).  Its defining module
(`juniper/src/value/mod.rs`) is not among the provided sources. -/
inductive Value (S : Type) where
  | Null
  | Scalar (s : S)
  | List (items : List (Value S))
  | Object (fields : List (String × Value S))

/-- Modelled from the spec: `Value::is_null()` holds exactly for the `Null`
variant (used by the resolvers' stop-on-null check). -/
def is_null : Value S → Bool
  | .Null => true
  | _ => false

/-- Outcome of a resolver call, separating the hard failure of
`.expect("Current type is not a list type")` from a normal return. -/
inductive PanicOr (α : Type) where
  | panicked (msg : String)
  | returns (val : α)

variable {E : Type}

/-- Accumulation loop of `resolve_into_list`: the `i`-th entry of the first
argument is the pre-resolved outcome of `executor.resolve(info, o)` for the
`i`-th element of the iterator.  The `?` operator propagates the first `Err`;
when `stop_on_null && val.is_null()` the null value itself is returned for the
whole list; otherwise the value is pushed onto `result`. -/
def resolveListLoop (stopOnNull : Bool) :
    List (Except E (Value S)) → List (Value S) → Except E (Value S)
  | [], acc => .ok (.List acc)
  | r :: rest, acc =>
      match r with
      | .error e => .error e
      | .ok val =>
          if stopOnNull && is_null val then .ok val
          else resolveListLoop stopOnNull rest (acc ++ [val])

/-- `resolve_into_list` from `containers.rs`: `stop_on_null` is read from the
current schema position — `executor.current_type().list_contents()` is
embedded as `listContents : Option Bool` carrying `is_non_null()` of the
element type — with `.expect(..)` panicking when the descriptor is absent;
then the accumulation loop runs over the pre-resolved elements. -/
def resolve_into_list (listContents : Option Bool)
    (resolved : List (Except E (Value S))) : PanicOr (Except E (Value S)) :=
  match listContents with
  | none => .panicked "Current type is not a list type"
  | some nonNull => .returns (resolveListLoop nonNull resolved [])

/-- Drain of the `FuturesOrdered` queue in `resolve_into_list_async`:
`arrivals` records, in completion order, the original index of each element
future together with its resolved value; the queue buffers completions and
yields them in original index order, i.e. the arrival events sorted by
index. -/
def drainOrdered (arrivals : List (Nat × Value S)) : List (Value S) :=
  (List.insertionSort (fun p q => p.1 ≤ q.1) arrivals).map Prod.snd

/-- Accumulation loop of `resolve_into_list_async`
(`while let Some(value) = futures.next().await`): elements come as plain
`Value`s because `resolve_into_value_async` records per-element errors on the
executor and returns the value; the stop-on-null rule is the same as in the
synchronous loop. -/
def resolveListLoopAsync (stopOnNull : Bool) :
    List (Value S) → List (Value S) → Except E (Value S)
  | [], acc => .ok (.List acc)
  | v :: rest, acc =>
      if stopOnNull && is_null v then .ok v
      else resolveListLoopAsync stopOnNull rest (acc ++ [v])

/-- `resolve_into_list_async` from `containers.rs`: same `.expect(..)` on the
list-contents descriptor, then the stop-on-null loop over the `FuturesOrdered`
drain of the completion events. -/
def resolve_into_list_async (listContents : Option Bool)
    (arrivals : List (Nat × Value S)) : PanicOr (Except E (Value S)) :=
  match listContents with
  | none => .panicked "Current type is not a list type"
  | some nonNull => .returns (resolveListLoopAsync (E := E) nonNull (drainOrdered arrivals) [])

/-- Behavior of one `i.item.convert()` call on one raw list element: it may
return `Some`, return `None`, or panic (the source's safety comment notes the
`T: FromInputValue<S>` implementation is not controlled by `juniper` and may
panic). -/
inductive ElemBeh (T : Type) where
  | converts (t : T)
  | fails
  | panics

/-- Result of one `items.next()` call on the `filter_map`-ed iterator. -/
inductive PullRes (T : Type) where
  | yielded (t : T) (rest : List (ElemBeh T))
  | exhausted
  | panicked

/-- One `items.next()`: raw elements whose conversion fails are skipped, a
panicking conversion propagates, a successful conversion yields its value and
the remaining raw elements. -/
def pullNext : List (ElemBeh T) → PullRes T
  | [] => .exhausted
  | .panics :: _ => .panicked
  | .fails :: r => pullNext r
  | .converts t :: r => .yielded t r

/-- State of `PartiallyInitializedArray`: the slot store (`none` is an
uninitialized `MaybeUninit` slot), the count of initialized slots, and the
ownership-transfer flag. -/
structure Staging (T : Type) where
  arr : Nat → Option T
  init_len : Nat
  no_drop : Bool

/-- Fresh staging area: `MaybeUninit::uninit().assume_init()` slots,
`init_len: 0`, `no_drop: false`. -/
def emptyStaging : Staging T := ⟨fun _ => none, 0, false⟩

/-- Slot write of the fill loop: `*elem = MaybeUninit::new(i)` at the current
loop position followed by `out.init_len += 1` (no user code runs between the
two, so they are modelled as one atomic step). -/
def writeSlot (st : Staging T) (pos : Nat) (t : T) : Staging T :=
  ⟨fun i => if i = pos then some t else st.arr i, st.init_len + 1, st.no_drop⟩

/-- `Drop for PartiallyInitializedArray`: when `no_drop` is unset,
`ptr::drop_in_place` runs once on each slot in `arr[0..init_len]`, in order;
a `none` entry in the result would mean dropping an uninitialized slot. -/
def dropGlue (st : Staging T) : List (Option T) :=
  if st.no_drop then [] else (List.range st.init_len).map st.arr

/-- Setting `out.no_drop = true` before handing the array to the caller. -/
def armNoDrop (st : Staging T) : Staging T := ⟨st.arr, st.init_len, true⟩

/-- `mem::transmute_copy::<_, Self>(&out.arr)`: the `N` slots read back as the
returned array. -/
def transmuteArr (N : Nat) (st : Staging T) : List (Option T) :=
  (List.range N).map st.arr

/-- Result of the fill loop over the staging area, with the list of elements
constructed so far (the ghost trace of successful `convert` calls) carried
along. -/
inductive StRes (T : Type) where
  | stPanicked (st : Staging T) (cons : List T)
  | stRanOut (st : Staging T) (cons : List T)
  | stCompleted (st : Staging T) (cons : List T) (rest : List (ElemBeh T))

/-- Fill loop `for elem in &mut out.arr[..]` over the staging area: `pos` is
the current slot, `n` the number of slots still to fill; each pulled item is
written to the current slot; iterator exhaustion (`There is not enough items`)
and panics abort the loop with the staging area as is. -/
def fillStaged : Nat → Nat → List (ElemBeh T) → Staging T → List T → StRes T
  | _, 0, src, st, cons => .stCompleted st cons src
  | pos, n + 1, src, st, cons =>
      match pullNext src with
      | .yielded t r => fillStaged (pos + 1) n r (writeSlot st pos t) (cons ++ [t])
      | .exhausted => .stRanOut st cons
      | .panicked => .stPanicked st cons

/-- Observable trace of one `[T; N]::from_input_value` run on a `List` input:
`handed` is the transmuted array given to the caller (`none` when the
conversion fails or panics), `panicked` tells whether a panic propagated,
`constructed` lists every element a `convert` call produced, and `destructed`
lists every slot value destructed before control leaves the function. -/
structure StagedRun (T : Type) where
  handed : Option (List (Option T))
  panicked : Bool
  constructed : List T
  destructed : List (Option T)

/-- Full run of the `List` arm of `[T; N]::from_input_value` over the staging
area: fill the `N` slots, check `items.next().is_some()` (whose pulled extra
element is a host temporary, destructed at the end of the check), and on
success disarm the staging destructor and transmute the slots out.  Every
early exit (too few items, too many items, panic) leaves `no_drop` unset, so
the staging `Drop` glue runs on `arr[0..init_len]`. -/
def runStaged (N : Nat) (src : List (ElemBeh T)) : StagedRun T :=
  match fillStaged 0 N src emptyStaging [] with
  | .stPanicked st cons => ⟨none, true, cons, dropGlue st⟩
  | .stRanOut st cons => ⟨none, false, cons, dropGlue st⟩
  | .stCompleted st cons rest =>
      match pullNext rest with
      | .yielded t _ => ⟨none, false, cons ++ [t], dropGlue st ++ [some t]⟩
      | .panicked => ⟨none, true, cons, dropGlue st⟩
      | .exhausted => ⟨some (transmuteArr N (armNoDrop st)), false, cons, dropGlue (armNoDrop st)⟩

/-- Behavior of a panic-free element conversion on a raw element. -/
def behOf (convert : InputValue S → Option T) (v : InputValue S) : ElemBeh T :=
  match convert v with
  | some t => .converts t
  | none => .fails


/-- C1: the claim states that `visit_i64` produces `Int(v)` when `v` fits in
the signed 32-bit range and `WideInt(v)` otherwise, never silently truncating.
The code only checks the upper bound `value <= i32::max_value()`, so the input
`v = -2147483649 = i32::MIN - 1` — which lies outside the signed 32-bit range —
is cast with `value as i32` and wraps silently to `Int(2147483647)` instead of
being kept intact as `Long(-2147483649)`. -/
theorem c1_visit_i64_truncates_below_i32_min :
    visit_i64 (F := Unit) (-2147483649) = MyScalarValue.Int 2147483647 ∧
    (-2147483649 : Int) < i32Min ∧
    visit_i64 (F := Unit) (-2147483649) ≠ MyScalarValue.Long (-2147483649) ∧
    visit_i64 (F := Unit) (-2147483649) ≠ MyScalarValue.Int (-2147483649) := by
  refine ⟨by decide, by decide, by decide, by decide⟩

/-- C6: decoding an unsigned 64-bit value `v` equals decoding `v` as a signed
64-bit value whenever `v` fits in the signed 64-bit range, and yields
`Float(v as f64)` otherwise. -/
theorem c6_visit_u64_matches_signed_dispatch (F : Type) (u64ToF64 : Nat → F) (v : Nat) :
    (v ≤ 9223372036854775807 → visit_u64 u64ToF64 v = visit_i64 ((v : Int))) ∧
    (9223372036854775807 < v → visit_u64 u64ToF64 v = MyScalarValue.Float (u64ToF64 v)) := by
  constructor
  · intro h
    have hv : v < 9223372036854775808 := by omega
    simp [visit_u64, i64MaxNat, u64AsI64, h, hv]
  · intro h
    have h' : ¬ v ≤ i64MaxNat := by simp [i64MaxNat]; omega
    simp [visit_u64, h']

/-- Witness for C6: `4294967297` is within the signed 64-bit range and decodes
to `Long 4294967297` exactly, while `2^63` exceeds it and decodes to a
`Float`. -/
theorem c6_visit_u64_matches_signed_dispatch_witness :
    ((4294967297 : Nat) ≤ 9223372036854775807 ∧
      visit_u64 (F := Unit) (fun _ => ()) 4294967297 = MyScalarValue.Long 4294967297) ∧
    ((9223372036854775807 : Nat) < 9223372036854775808 ∧
      visit_u64 (F := Unit) (fun _ => ()) 9223372036854775808 = MyScalarValue.Float ()) := by
  refine ⟨⟨by decide, ?_⟩, ⟨by decide, ?_⟩⟩
  · exact ((c6_visit_u64_matches_signed_dispatch Unit (fun _ => ()) 4294967297).1
      (by decide)).trans (by decide)
  · exact (c6_visit_u64_matches_signed_dispatch Unit (fun _ => ()) 9223372036854775808).2
      (by decide)

/-- C9: each accessor is present exactly when the active variant matches the
accessor's type, except the `Int → Float` widening admitted by `as_float`; the
value carried by a present result is the stored payload (widened through
`f64::from` for `as_float` on `Int`). -/
theorem c9_accessor_presence (F : Type) (i32ToF64 : Int → F) (s : MyScalarValue F) :
    ((as_int s).isSome ↔ ∃ i, s = MyScalarValue.Int i) ∧
    ((as_string s).isSome ↔ ∃ t, s = MyScalarValue.String t) ∧
    ((into_string s).isSome ↔ ∃ t, s = MyScalarValue.String t) ∧
    ((as_str s).isSome ↔ ∃ t, s = MyScalarValue.String t) ∧
    ((as_float i32ToF64 s).isSome ↔
      (∃ i, s = MyScalarValue.Int i) ∨ (∃ f, s = MyScalarValue.Float f)) ∧
    ((as_boolean s).isSome ↔ ∃ b, s = MyScalarValue.Boolean b) ∧
    (∀ i, as_int (F := F) (MyScalarValue.Int i) = some i) ∧
    (∀ i, as_float i32ToF64 (MyScalarValue.Int i) = some (i32ToF64 i)) ∧
    (∀ f, as_float i32ToF64 (MyScalarValue.Float f) = some f) ∧
    (∀ t, as_string (F := F) (MyScalarValue.String t) = some t) ∧
    (∀ t, into_string (F := F) (MyScalarValue.String t) = some t) ∧
    (∀ t, as_str (F := F) (MyScalarValue.String t) = some t) ∧
    (∀ b, as_boolean (F := F) (MyScalarValue.Boolean b) = some b) := by
  cases s <;>
    simp [as_int, as_string, into_string, as_str, as_float, as_boolean]
theorem convertAll_spec {convert : α → Option β} :
    ∀ {l : List α} {xs : List β}, convertAll convert l = some xs →
      l.filterMap convert = xs ∧ xs.length = l.length := by
  intro l
  induction l with
  | nil => intro xs h; simp [convertAll] at h; simp [← h]
  | cons x t ih =>
      intro xs h
      simp only [convertAll] at h
      cases hx : convert x with
      | none => rw [hx] at h; simp at h
      | some y =>
          rw [hx] at h
          cases ht : convertAll convert t with
          | none => rw [ht] at h; simp at h
          | some ys =>
              rw [ht] at h
              simp at h
              obtain ⟨h1, h2⟩ := ih ht
              simp [List.filterMap_cons, hx, h1, ← h, h2]

theorem length_filterMap_lt_of_fail {convert : α → Option β} :
    ∀ {l : List α} {x : α}, x ∈ l → convert x = none →
      (l.filterMap convert).length < l.length := by
  intro l
  induction l with
  | nil => intro x hx; simp at hx
  | cons a t ih =>
      intro x hx hfail
      rcases List.mem_cons.mp hx with rfl | hmem
      · have := List.length_filterMap_le convert t
        simp [List.filterMap_cons, hfail]
        omega
      · have ht := ih hmem hfail
        cases ha : convert a <;> simp [List.filterMap_cons, ha] <;> omega

theorem fillArray_of_length_eq {xs : List T} : ∀ {n : Nat}, xs.length = n →
    fillArray n xs = some xs := by
  induction xs with
  | nil => intro n h; simp at h; subst h; rfl
  | cons x t ih =>
      intro n h
      cases n with
      | zero => simp at h
      | succ m =>
          have : t.length = m := by simpa using h
          simp [fillArray, ih this]

theorem fillArray_of_length_ne {xs : List T} : ∀ {n : Nat}, xs.length ≠ n →
    fillArray n xs = none := by
  induction xs with
  | nil =>
      intro n h
      cases n with
      | zero => simp at h
      | succ m => rfl
  | cons x t ih =>
      intro n h
      cases n with
      | zero => rfl
      | succ m =>
          have : t.length ≠ m := by simp at h; omega
          simp [fillArray, ih this]

/-- C2 counterexample: the claim states that a `List` containing a failing
element never converts to a fixed-arity aggregate, but `[T; N]` conversion
filters failing elements out before counting, so the two-element list
`[Null, Scalar ()]`, whose first element fails to convert, still converts to
the one-element array `[()]`. -/
theorem c2_counterexample_array_drops_failing_element :
    scalarOnly InputValue.Null = none ∧
    InputValue.Null ∈ [InputValue.Null, InputValue.Scalar ()] ∧
    arrayFromInputValue 1 scalarOnly
      (InputValue.List [InputValue.Null, InputValue.Scalar ()]) = some [()] := by
  refine ⟨rfl, by simp, rfl⟩

/-- C2 (amended): a `List` containing a failing element never converts to a
`Vec`; its conversion to `[T; N]` fails exactly when the number of
successfully converting elements differs from `N` — in particular whenever the
list has at most `N` elements — and when exactly `N` elements convert it
returns those `N` converted values, dropping the failing elements. -/
theorem c2_collection_failure_all_or_nothing (S T : Type) (convert : InputValue S → Option T)
    (ls : List (InputValue S)) (x : InputValue S) (hx : x ∈ ls) (hfail : convert x = none) :
    vecFromInputValue convert (InputValue.List ls) = none ∧
    (∀ N, ls.length ≤ N → arrayFromInputValue N convert (InputValue.List ls) = none) ∧
    (∀ N, (ls.filterMap convert).length ≠ N →
      arrayFromInputValue N convert (InputValue.List ls) = none) ∧
    (∀ N, (ls.filterMap convert).length = N →
      arrayFromInputValue N convert (InputValue.List ls) = some (ls.filterMap convert)) := by
  have hlt := length_filterMap_lt_of_fail hx hfail
  refine ⟨?_, ?_, ?_, ?_⟩
  · simp only [vecFromInputValue]
    rw [if_neg (by omega)]
  · intro N hN
    simp only [arrayFromInputValue]
    exact fillArray_of_length_ne (by omega)
  · intro N hN
    simp only [arrayFromInputValue]
    exact fillArray_of_length_ne hN
  · intro N hN
    simp only [arrayFromInputValue]
    exact fillArray_of_length_eq hN

/-- Witness for C2 (amended): on the list `[Null, Scalar ()]` with a failing
first element, both the `Vec` conversion and the arity-2 array conversion
fail. -/
theorem c2_collection_failure_all_or_nothing_witness :
    (InputValue.Null ∈ [InputValue.Null, InputValue.Scalar ()]) ∧
    scalarOnly InputValue.Null = none ∧
    vecFromInputValue scalarOnly (InputValue.List [InputValue.Null, InputValue.Scalar ()]) =
      none ∧
    arrayFromInputValue 2 scalarOnly (InputValue.List [InputValue.Null, InputValue.Scalar ()]) =
      none :=
  have h := c2_collection_failure_all_or_nothing Unit Unit scalarOnly
    [InputValue.Null, InputValue.Scalar ()] InputValue.Null (by simp) rfl
  ⟨by simp, rfl, h.1, h.2.1 2 (by decide)⟩

/-- C3: a `List` of length `N` whose elements all convert successfully fills a
fixed-arity-`N` aggregate in order; with all elements convertible, length
`N + 1` or `N - 1` fails; a non-`List` input whose single-element conversion
succeeds converts exactly when `N = 1`, producing a one-element aggregate, and
a successful conversion of a non-`List` input forces `N = 1`. -/
theorem c3_array_fixed_arity_conversion (S T : Type) (convert : InputValue S → Option T) :
    (∀ ls xs, convertAll convert ls = some xs →
      arrayFromInputValue ls.length convert (InputValue.List ls) = some xs) ∧
    (∀ N ls xs, convertAll convert ls = some xs →
      (ls.length = N + 1 ∨ N = ls.length + 1) →
      arrayFromInputValue N convert (InputValue.List ls) = none) ∧
    (∀ N v e, isListInput v = false → convert v = some e →
      arrayFromInputValue N convert v = if N = 1 then some [e] else none) ∧
    (∀ N v ys, isListInput v = false → arrayFromInputValue N convert v = some ys →
      N = 1 ∧ ∃ e, convert v = some e ∧ ys = [e]) := by
  refine ⟨?_, ?_, ?_, ?_⟩
  · intro ls xs h
    obtain ⟨hf, hlen⟩ := convertAll_spec h
    simp only [arrayFromInputValue]
    rw [hf]
    exact fillArray_of_length_eq hlen
  · intro N ls xs h hN
    obtain ⟨hf, hlen⟩ := convertAll_spec h
    simp only [arrayFromInputValue]
    rw [hf]
    exact fillArray_of_length_ne (by omega)
  · intro N v e hv hconv
    cases v <;> simp [isListInput] at hv ⊢ <;>
      simp [arrayFromInputValue, hconv]
  · intro N v ys hv h
    cases v <;> simp [isListInput] at hv ⊢ <;>
      · simp only [arrayFromInputValue] at h
        cases hc : convert _ with
        | none => rw [hc] at h; simp at h
        | some e =>
            rw [hc] at h
            simp only [Option.some_bind] at h
            by_cases hN : N = 1
            · subst hN
              rw [if_pos rfl] at h
              exact ⟨rfl, e, rfl, (Option.some_inj.mp h).symm⟩
            · rw [if_neg hN] at h
              simp at h

/-- Witness for C3: concrete conversions at arities 1, 2 and 3 of a length-2
all-convertible list, and of a non-`List` scalar input. -/
theorem c3_array_fixed_arity_conversion_witness :
    convertAll scalarOnly [InputValue.Scalar (), InputValue.Scalar ()] = some [(), ()] ∧
    arrayFromInputValue 2 scalarOnly
      (InputValue.List [InputValue.Scalar (), InputValue.Scalar ()]) = some [(), ()] ∧
    arrayFromInputValue 1 scalarOnly
      (InputValue.List [InputValue.Scalar (), InputValue.Scalar ()]) = none ∧
    arrayFromInputValue 3 scalarOnly
      (InputValue.List [InputValue.Scalar (), InputValue.Scalar ()]) = none ∧
    isListInput (InputValue.Scalar ()) = false ∧
    scalarOnly (InputValue.Scalar ()) = some () ∧
    arrayFromInputValue 1 scalarOnly (InputValue.Scalar ()) = some [()] ∧
    arrayFromInputValue 2 scalarOnly (InputValue.Scalar ()) = none :=
  have h := c3_array_fixed_arity_conversion Unit Unit scalarOnly
  ⟨rfl,
   by simpa using
     h.1 [InputValue.Scalar (), InputValue.Scalar ()] [(), ()] rfl,
   h.2.1 1 [InputValue.Scalar (), InputValue.Scalar ()] [(), ()] rfl (Or.inl rfl),
   h.2.1 3 [InputValue.Scalar (), InputValue.Scalar ()] [(), ()] rfl (Or.inr rfl),
   rfl, rfl,
   by simpa using h.2.2.1 1 (InputValue.Scalar ()) () rfl rfl,
   by simpa using h.2.2.1 2 (InputValue.Scalar ()) () rfl rfl⟩

theorem is_null_eq_true_iff {v : Value S} : is_null v = true ↔ v = Value.Null := by
  cases v <;> simp [is_null]

/-- Lists sorted by non-strict key order whose keys are distinct are sorted by
strict key order. -/
theorem sorted_lt_keys_of_sorted_le {α : Type} {l : List (Nat × α)}
    (hs : l.Sorted (fun p q => p.1 ≤ q.1)) (hn : (l.map Prod.fst).Nodup) :
    l.Sorted (fun p q => p.1 < q.1) := by
  have hn' : l.Pairwise (fun p q => p.1 ≠ q.1) := List.pairwise_map.mp hn
  exact (hs.and hn').imp fun h => lt_of_le_of_ne h.1 h.2

/-- Draining the ordered queue over any permutation of the indexed source
values recovers the source values in source order. -/
theorem drainOrdered_of_perm_enum {values : List (Value S)}
    {arrivals : List (Nat × Value S)} (h : arrivals.Perm values.enum) :
    drainOrdered arrivals = values := by
  haveI : IsTotal (Nat × Value S) (fun p q => p.1 ≤ q.1) :=
    ⟨fun a b => Nat.le_total a.1 b.1⟩
  haveI : IsTrans (Nat × Value S) (fun p q => p.1 ≤ q.1) :=
    ⟨fun _ _ _ hab hbc => le_trans hab hbc⟩
  haveI : IsAntisymm (Nat × Value S) (fun p q => p.1 < q.1) :=
    ⟨fun a b hab hba => absurd (lt_trans hab hba) (lt_irrefl _)⟩
  have hperm : (List.insertionSort (fun p q => p.1 ≤ q.1) arrivals).Perm values.enum :=
    (List.perm_insertionSort _ arrivals).trans h
  have hnodup : ((List.insertionSort (fun p q => p.1 ≤ q.1) arrivals).map Prod.fst).Nodup :=
    (List.nodup_enum_map_fst values).perm (hperm.map Prod.fst).symm
  have hsorted : (List.insertionSort (fun p q => p.1 ≤ q.1) arrivals).Sorted
      (fun p q => p.1 < q.1) :=
    sorted_lt_keys_of_sorted_le (List.sorted_insertionSort _ arrivals) hnodup
  have henum : values.enum.Sorted (fun p q => p.1 < q.1) := by
    have := List.pairwise_lt_range values.length
    rw [← List.enum_map_fst values] at this
    exact List.pairwise_map.mp this
  have : List.insertionSort (fun p q => p.1 ≤ q.1) arrivals = values.enum :=
    List.eq_of_perm_of_sorted hperm hsorted henum
  rw [drainOrdered, this, List.enum_map_snd]

/-- Characterization of the synchronous loop when every element resolves
without error. -/
theorem resolveListLoop_ok_spec (nonNull : Bool) :
    ∀ (values acc : List (Value S)),
      resolveListLoop (E := E) nonNull (values.map Except.ok) acc =
        Except.ok (if nonNull && values.any is_null then Value.Null
          else Value.List (acc ++ values)) := by
  intro values
  induction values with
  | nil => intro acc; simp [resolveListLoop]
  | cons v t ih =>
      intro acc
      simp only [List.map_cons, resolveListLoop]
      by_cases hv : nonNull && is_null v
      · rw [if_pos hv]
        have hnull : v = Value.Null := is_null_eq_true_iff.mp (by
          cases nonNull <;> simp_all)
        have hcond : (nonNull && (v :: t).any is_null) = true := by
          simp [List.any_cons]
          cases nonNull <;> simp_all
        rw [hcond]
        simp [hnull]
      · rw [if_neg hv]
        rw [ih (acc ++ [v])]
        have hcond : (nonNull && (v :: t).any is_null) = (nonNull && t.any is_null) := by
          cases nonNull <;> cases hn : is_null v <;> simp_all [List.any_cons]
        rw [hcond]
        simp

/-- The synchronous loop over error-free elements agrees with the asynchronous
loop over the same values. -/
theorem resolveListLoop_eq_async (nonNull : Bool) :
    ∀ (values acc : List (Value S)),
      resolveListLoopAsync (E := E) nonNull values acc =
        resolveListLoop (E := E) nonNull (values.map Except.ok) acc := by
  intro values
  induction values with
  | nil => intro acc; rfl
  | cons v t ih =>
      intro acc
      simp only [List.map_cons, resolveListLoop, resolveListLoopAsync]
      by_cases hv : nonNull && is_null v
      · rw [if_pos hv, if_pos hv]
      · rw [if_neg hv, if_neg hv, ih]

/-- C4: resolving a sequence of synchronously resolved elements at a list
position returns Null for the whole list when the declared element type is
non-null and some element resolved to Null, and otherwise returns the output
List of all resolved elements in source order. -/
theorem c4_resolve_into_list_null_propagation (S E : Type) (nonNull : Bool)
    (values : List (Value S)) :
    resolve_into_list (E := E) (some nonNull) (values.map Except.ok) =
      PanicOr.returns (Except.ok
        (if nonNull && values.any is_null then Value.Null else Value.List values)) := by
  simp only [resolve_into_list]
  rw [resolveListLoop_ok_spec]
  simp

/-- C5: the asynchronous list resolver produces the same output node as the
synchronous one — same panic on a missing descriptor, same null-propagation
decision and same source-ordered output List — for every completion order of
the element resolutions. -/
theorem c5_async_resolution_matches_sync (S E : Type) (listContents : Option Bool)
    (values : List (Value S)) (arrivals : List (Nat × Value S))
    (h : arrivals.Perm values.enum) :
    resolve_into_list_async (E := E) listContents arrivals =
      resolve_into_list (E := E) listContents (values.map Except.ok) := by
  cases listContents with
  | none => rfl
  | some nonNull =>
      simp only [resolve_into_list_async, resolve_into_list]
      rw [drainOrdered_of_perm_enum h, resolveListLoop_eq_async]

/-- Witness for C5: the two-element source `[Null, Scalar ()]` under a
nullable element type, with the second element completing first, still
resolves to the source-ordered list `[Null, Scalar ()]`, equal to the
synchronous result. -/
theorem c5_async_resolution_matches_sync_witness :
    resolve_into_list_async (E := Unit) (some false)
        [(1, Value.Scalar ()), (0, (Value.Null : Value Unit))] =
      resolve_into_list (E := Unit) (some false)
        ([Value.Null, Value.Scalar ()].map Except.ok) ∧
    resolve_into_list_async (E := Unit) (some false)
        [(1, Value.Scalar ()), (0, (Value.Null : Value Unit))] =
      PanicOr.returns (Except.ok (Value.List [Value.Null, Value.Scalar ()])) :=
  ⟨c5_async_resolution_matches_sync Unit Unit (some false)
      [Value.Null, Value.Scalar ()] [(1, Value.Scalar ()), (0, Value.Null)]
      (List.Perm.swap (0, Value.Null) (1, Value.Scalar ()) []),
   rfl⟩

/-- C7: requesting list resolution with an absent list-contents descriptor
panics, synchronously and asynchronously, while a present descriptor always
reaches a normal return. -/
theorem c7_missing_list_descriptor_panics (S E : Type)
    (resolved : List (Except E (Value S))) (arrivals : List (Nat × Value S)) :
    resolve_into_list (E := E) none resolved =
      PanicOr.panicked "Current type is not a list type" ∧
    resolve_into_list_async (E := E) none arrivals =
      PanicOr.panicked "Current type is not a list type" ∧
    (∀ b, ∃ r, resolve_into_list (E := E) (some b) resolved = PanicOr.returns r) ∧
    (∀ b, ∃ r, resolve_into_list_async (E := E) (some b) arrivals = PanicOr.returns r) :=
  ⟨rfl, rfl, fun _ => ⟨_, rfl⟩, fun _ => ⟨_, rfl⟩⟩

theorem resolveListLoop_error (nonNull : Bool) (e : E) :
    ∀ (pre : List (Value S)) (rest : List (Except E (Value S)))
      (acc : List (Value S)),
      (∀ v ∈ pre, nonNull = true → is_null v = false) →
      resolveListLoop nonNull (pre.map Except.ok ++ Except.error e :: rest) acc =
        Except.error e := by
  intro pre
  induction pre with
  | nil => intro rest acc _; rfl
  | cons v t ih =>
      intro rest acc hpre
      simp only [List.map_cons, List.cons_append, resolveListLoop]
      have hv : (nonNull && is_null v) = false := by
        cases hn : nonNull
        · rfl
        · simp [hpre v (by simp) hn]
      rw [hv]
      simp only [Bool.false_eq_true, if_false]
      exact ih rest (acc ++ [v]) fun w hw => hpre w (by simp [hw])

/-- C10: when an element of a synchronously resolved sequence returns an error
(with no voiding Null before it), `resolve_into_list` returns that error, and
the result does not depend on any element after the failing one. -/
theorem c10_sync_resolution_propagates_error (S E : Type) (nonNull : Bool)
    (pre : List (Value S)) (e : E) (rest rest' : List (Except E (Value S)))
    (hpre : ∀ v ∈ pre, nonNull = true → is_null v = false) :
    resolve_into_list (E := E) (some nonNull)
        (pre.map Except.ok ++ Except.error e :: rest) =
      PanicOr.returns (Except.error e) ∧
    resolve_into_list (E := E) (some nonNull)
        (pre.map Except.ok ++ Except.error e :: rest) =
      resolve_into_list (E := E) (some nonNull)
        (pre.map Except.ok ++ Except.error e :: rest') := by
  have h1 : resolve_into_list (E := E) (some nonNull)
      (pre.map Except.ok ++ Except.error e :: rest) =
      PanicOr.returns (Except.error e) := by
    simp only [resolve_into_list]
    rw [resolveListLoop_error nonNull e pre rest [] hpre]
  have h2 : resolve_into_list (E := E) (some nonNull)
      (pre.map Except.ok ++ Except.error e :: rest') =
      PanicOr.returns (Except.error e) := by
    simp only [resolve_into_list]
    rw [resolveListLoop_error nonNull e pre rest' [] hpre]
  exact ⟨h1, h1.trans h2.symm⟩

/-- Witness for C10: with a non-null element type, a non-null first element
and an erroring second element, the whole resolution returns the error even
though a third element is present. -/
theorem c10_sync_resolution_propagates_error_witness :
    resolve_into_list (E := Unit) (some true)
        ([Value.Scalar ()].map Except.ok ++ Except.error () :: [Except.ok Value.Null]) =
      PanicOr.returns (Except.error ()) :=
  (c10_sync_resolution_propagates_error Unit Unit true [Value.Scalar ()] () [Except.ok Value.Null]
    [] (by intro v hv _; simp at hv; subst hv; rfl)).1

/-- Invariant of the fill loop: `init_len` counts exactly the initialized
slots, and slots `0..init_len` hold exactly the constructed elements in
construction order. -/
theorem fillStaged_spec :
    ∀ (n pos : Nat) (src : List (ElemBeh T)) (st : Staging T) (cons : List T),
      st.init_len = pos → (List.range pos).map st.arr = cons.map some →
      st.no_drop = false →
      (match fillStaged pos n src st cons with
       | .stPanicked st' cons' =>
           st'.init_len = cons'.length ∧
           (List.range st'.init_len).map st'.arr = cons'.map some ∧ st'.no_drop = false
       | .stRanOut st' cons' =>
           st'.init_len = cons'.length ∧
           (List.range st'.init_len).map st'.arr = cons'.map some ∧ st'.no_drop = false
       | .stCompleted st' cons' _ =>
           st'.init_len = cons'.length ∧
           (List.range st'.init_len).map st'.arr = cons'.map some ∧
           st'.no_drop = false ∧ st'.init_len = pos + n) := by
  intro n
  induction n with
  | zero =>
      intro pos src st cons hlen harr hnd
      have hl : pos = cons.length := by
        have := congrArg List.length harr
        simpa [hlen] using this
      simp only [fillStaged]
      exact ⟨by omega, by rw [hlen]; exact harr, hnd, by omega⟩
  | succ m ih =>
      intro pos src st cons hlen harr hnd
      cases hp : pullNext src with
      | exhausted =>
          have hl : pos = cons.length := by
            have := congrArg List.length harr
            simpa [hlen] using this
          simp only [fillStaged, hp]
          exact ⟨by omega, by rw [hlen]; exact harr, hnd⟩
      | panicked =>
          have hl : pos = cons.length := by
            have := congrArg List.length harr
            simpa [hlen] using this
          simp only [fillStaged, hp]
          exact ⟨by omega, by rw [hlen]; exact harr, hnd⟩
      | yielded t r =>
          simp only [fillStaged, hp]
          have hw1 : (writeSlot st pos t).init_len = pos + 1 := by
            simp [writeSlot, hlen]
          have hw2 : (List.range (pos + 1)).map (writeSlot st pos t).arr =
              (cons ++ [t]).map some := by
            rw [List.range_succ, List.map_append, List.map_append]
            congr 1
            · rw [← harr]
              apply List.map_congr_left
              intro i hi
              have : i ≠ pos := by
                have := List.mem_range.mp hi
                omega
              simp [writeSlot, this]
            · simp [writeSlot]
          have hw3 : (writeSlot st pos t).no_drop = false := by
            simp [writeSlot, hnd]
          have := ih (pos + 1) r (writeSlot st pos t) (cons ++ [t]) hw1 hw2 hw3
          cases hfs : fillStaged (pos + 1) m r (writeSlot st pos t) (cons ++ [t]) with
          | stPanicked st' cons' => rw [hfs] at this; exact this
          | stRanOut st' cons' => rw [hfs] at this; exact this
          | stCompleted st' cons' rest =>
              rw [hfs] at this
              exact ⟨this.1, this.2.1, this.2.2.1, by have := this.2.2.2; omega⟩

/-- Correspondence between the staged fill loop on a panic-free source and the
pure fill loop over the filtered conversions: the staged loop never panics, it
runs out or finds an extra item exactly when the pure loop fails, and on
success it has constructed exactly the elements the pure loop returns. -/
theorem fillStaged_behOf_correspond (convert : InputValue S → Option T) :
    ∀ (ls : List (InputValue S)) (n pos : Nat) (st : Staging T) (cons : List T),
      (∀ st' cons',
        fillStaged pos n (ls.map (behOf convert)) st cons ≠ .stPanicked st' cons') ∧
      (∀ st' cons',
        fillStaged pos n (ls.map (behOf convert)) st cons = .stRanOut st' cons' →
        fillArray n (ls.filterMap convert) = none) ∧
      (∀ st' cons' rest,
        fillStaged pos n (ls.map (behOf convert)) st cons = .stCompleted st' cons' rest →
        pullNext rest ≠ PullRes.panicked ∧
        (pullNext rest = PullRes.exhausted →
          ∃ xs, fillArray n (ls.filterMap convert) = some xs ∧ cons' = cons ++ xs) ∧
        (∀ u r, pullNext rest = PullRes.yielded u r →
          fillArray n (ls.filterMap convert) = none)) := by
  intro ls
  induction ls with
  | nil =>
      intro n pos st cons
      cases n with
      | zero =>
          refine ⟨fun st' cons' h => by simp [fillStaged] at h,
            fun st' cons' h => by simp [fillStaged] at h,
            fun st' cons' rest h => ?_⟩
          have h' : StRes.stCompleted (T := T) st cons [] =
              StRes.stCompleted st' cons' rest := h
          injection h' with h1 h2 h3
          subst h1; subst h2; subst h3
          refine ⟨by simp [pullNext], fun _ => ⟨[], rfl, by simp⟩,
            fun u r hur => by simp [pullNext] at hur⟩
      | succ m =>
          refine ⟨fun st' cons' h => ?_, fun st' cons' h => rfl,
            fun st' cons' rest h => ?_⟩
          · simp [fillStaged, pullNext] at h
          · simp [fillStaged, pullNext] at h
  | cons x t ih =>
      intro n pos st cons
      cases hx : convert x with
      | none =>
          have hbeh : behOf convert x = ElemBeh.fails := by simp [behOf, hx]
          have hfm : (x :: t).filterMap convert = t.filterMap convert := by
            simp [List.filterMap_cons, hx]
          rw [hfm]
          simp only [List.map_cons, hbeh]
          cases n with
          | zero =>
              refine ⟨fun st' cons' h => by simp [fillStaged] at h,
                fun st' cons' h => by simp [fillStaged] at h,
                fun st' cons' rest h => ?_⟩
              have h' : StRes.stCompleted st cons (ElemBeh.fails :: t.map (behOf convert)) =
                  StRes.stCompleted st' cons' rest := h
              injection h' with h1 h2 h3
              subst h1; subst h2; subst h3
              have hpeq : pullNext (ElemBeh.fails :: t.map (behOf convert)) =
                  pullNext (t.map (behOf convert)) := rfl
              have ht := (ih 0 pos st cons).2.2 st cons (t.map (behOf convert)) rfl
              rw [hpeq]
              exact ht
          | succ m =>
              have hred : fillStaged pos (m + 1)
                  (ElemBeh.fails :: t.map (behOf convert)) st cons =
                  fillStaged pos (m + 1) (t.map (behOf convert)) st cons := by
                cases hpn : pullNext (t.map (behOf convert)) <;>
                  simp [fillStaged, pullNext, hpn]
              rw [hred]
              exact ih (m + 1) pos st cons
      | some y =>
          have hbeh : behOf convert x = ElemBeh.converts y := by simp [behOf, hx]
          have hfm : (x :: t).filterMap convert = y :: t.filterMap convert := by
            simp [List.filterMap_cons, hx]
          rw [hfm]
          simp only [List.map_cons, hbeh]
          cases n with
          | zero =>
              refine ⟨fun st' cons' h => by simp [fillStaged] at h,
                fun st' cons' h => by simp [fillStaged] at h,
                fun st' cons' rest h => ?_⟩
              have h' : StRes.stCompleted st cons
                  (ElemBeh.converts y :: t.map (behOf convert)) =
                  StRes.stCompleted st' cons' rest := h
              injection h' with h1 h2 h3
              subst h1; subst h2; subst h3
              refine ⟨by simp [pullNext], fun hex => by simp [pullNext] at hex,
                fun u r _ => rfl⟩
          | succ m =>
              have hstep : fillStaged pos (m + 1)
                  (ElemBeh.converts y :: t.map (behOf convert)) st cons =
                  fillStaged (pos + 1) m (t.map (behOf convert))
                    (writeSlot st pos y) (cons ++ [y]) := rfl
              have hfa : fillArray (m + 1) (y :: t.filterMap convert) =
                  (fillArray m (t.filterMap convert)).map (y :: ·) := rfl
              rw [hstep, hfa]
              obtain ⟨ihp, ihr, ihc⟩ := ih m (pos + 1) (writeSlot st pos y) (cons ++ [y])
              refine ⟨ihp, fun st' cons' h => by rw [ihr st' cons' h]; rfl, ?_⟩
              intro st' cons' rest h
              obtain ⟨hnp, hex, hyl⟩ := ihc st' cons' rest h
              refine ⟨hnp, ?_, fun u r hur => by rw [hyl u r hur]; rfl⟩
              intro hpx
              obtain ⟨xs, hxs, hcons⟩ := hex hpx
              exact ⟨y :: xs, by rw [hxs]; rfl, by rw [hcons, List.append_assoc]; rfl⟩

/-- C8: in every run of the fixed-arity staging area — including runs cut
short by a panicking or failing element conversion and runs aborted for too
few or too many items — the elements destructed before control leaves the
function are exactly the already-constructed elements, each exactly once in
construction order and never an uninitialized slot; a successful run destructs
nothing and hands the caller an `N`-slot array holding exactly the constructed
elements; and on panic-free sources the staged run succeeds exactly when the
pure `[T; N]` conversion embedding succeeds, with the same array. -/
theorem c8_array_staging_drop_safety (T : Type) (N : Nat) (src : List (ElemBeh T)) :
    ((runStaged N src).handed = none →
      (runStaged N src).destructed = (runStaged N src).constructed.map some) ∧
    (∀ arr, (runStaged N src).handed = some arr →
      (runStaged N src).destructed = [] ∧
      arr = (runStaged N src).constructed.map some ∧
      (runStaged N src).constructed.length = N) ∧
    (∀ (S2 : Type) (convert : InputValue S2 → Option T) (ls : List (InputValue S2)),
      ((runStaged N (ls.map (behOf convert))).handed = none ∧
        arrayFromInputValue N convert (InputValue.List ls) = none) ∨
      (∃ xs, (runStaged N (ls.map (behOf convert))).handed = some (xs.map some) ∧
        arrayFromInputValue N convert (InputValue.List ls) = some xs)) := by
  have main : ∀ (src' : List (ElemBeh T)),
      ((runStaged N src').handed = none →
        (runStaged N src').destructed = (runStaged N src').constructed.map some) ∧
      (∀ arr, (runStaged N src').handed = some arr →
        (runStaged N src').destructed = [] ∧
        arr = (runStaged N src').constructed.map some ∧
        (runStaged N src').constructed.length = N) := by
    intro src'
    have hinv := fillStaged_spec (T := T) N 0 src' emptyStaging [] rfl
      (by simp [emptyStaging]) rfl
    cases hfs : fillStaged 0 N src' emptyStaging [] with
    | stPanicked st cons =>
        rw [hfs] at hinv
        have hinv' : st.init_len = cons.length ∧
            (List.range st.init_len).map st.arr = cons.map some ∧
            st.no_drop = false := hinv
        simp only [runStaged, hfs]
        refine ⟨fun _ => ?_, fun arr harr => by simp at harr⟩
        simp [dropGlue, hinv'.2.2, hinv'.2.1]
    | stRanOut st cons =>
        rw [hfs] at hinv
        have hinv' : st.init_len = cons.length ∧
            (List.range st.init_len).map st.arr = cons.map some ∧
            st.no_drop = false := hinv
        simp only [runStaged, hfs]
        refine ⟨fun _ => ?_, fun arr harr => by simp at harr⟩
        simp [dropGlue, hinv'.2.2, hinv'.2.1]
    | stCompleted st cons rest =>
        rw [hfs] at hinv
        have hinv' : st.init_len = cons.length ∧
            (List.range st.init_len).map st.arr = cons.map some ∧
            st.no_drop = false ∧ st.init_len = 0 + N := hinv
        obtain ⟨hlen, harr, hnd, hfull⟩ := hinv'
        cases hp : pullNext rest with
        | yielded u r =>
            simp only [runStaged, hfs, hp]
            refine ⟨fun _ => ?_, fun arr harr2 => by simp at harr2⟩
            simp [dropGlue, hnd, harr]
        | panicked =>
            simp only [runStaged, hfs, hp]
            refine ⟨fun _ => ?_, fun arr harr2 => by simp at harr2⟩
            simp [dropGlue, hnd, harr]
        | exhausted =>
            simp only [runStaged, hfs, hp]
            refine ⟨fun h => by simp at h, fun arr harr2 => ?_⟩
            have harm : arr = transmuteArr N (armNoDrop st) := by
              simpa using harr2.symm
            refine ⟨by simp [dropGlue, armNoDrop], ?_, by omega⟩
            rw [harm]
            simp only [transmuteArr, armNoDrop]
            have hN : st.init_len = N := by omega
            rw [hN] at harr
            exact harr
  refine ⟨(main src).1, (main src).2, ?_⟩
  intro S2 convert ls
  obtain ⟨hcp, hcr, hcc⟩ := fillStaged_behOf_correspond convert ls N 0 emptyStaging []
  have hinv := fillStaged_spec (T := T) N 0 (ls.map (behOf convert)) emptyStaging [] rfl
    (by simp [emptyStaging]) rfl
  cases hfs : fillStaged 0 N (ls.map (behOf convert)) emptyStaging [] with
  | stPanicked st cons => exact absurd hfs (hcp st cons)
  | stRanOut st cons =>
      left
      constructor
      · simp only [runStaged, hfs]
      · simp only [arrayFromInputValue]
        exact hcr st cons hfs
  | stCompleted st cons rest =>
      rw [hfs] at hinv
      have hinv' : st.init_len = cons.length ∧
          (List.range st.init_len).map st.arr = cons.map some ∧
          st.no_drop = false ∧ st.init_len = 0 + N := hinv
      obtain ⟨hlen, harr, hnd, hfull⟩ := hinv'
      obtain ⟨hnp, hex, hyl⟩ := hcc st cons rest hfs
      cases hp : pullNext rest with
      | panicked => exact absurd hp hnp
      | yielded u r =>
          left
          constructor
          · simp only [runStaged, hfs, hp]
          · simp only [arrayFromInputValue]
            exact hyl u r hp
      | exhausted =>
          obtain ⟨xs, hfa, hcons⟩ := hex hp
          right
          refine ⟨xs, ?_, by simp only [arrayFromInputValue]; exact hfa⟩
          simp only [runStaged, hfs, hp]
          have hxs : cons = xs := by simpa using hcons
          subst hxs
          simp only [transmuteArr, armNoDrop, Option.some_inj]
          have hN : st.init_len = N := by omega
          rw [hN] at harr
          exact harr

/-- Witness for C8: with two slots, a source that converts `5` and then panics
destructs exactly the constructed `5` once; a panic-free source converting `1`
and `2` around a failing element hands the caller `[1, 2]` and destructs
nothing. -/
theorem c8_array_staging_drop_safety_witness :
    ((runStaged 2 [ElemBeh.converts 5, ElemBeh.panics]).handed = none ∧
      (runStaged 2 [ElemBeh.converts 5, ElemBeh.panics]).destructed =
        ((runStaged 2 [ElemBeh.converts 5, ElemBeh.panics]).constructed.map some) ∧
      (runStaged 2 [ElemBeh.converts 5, ElemBeh.panics]).constructed = [5] ∧
      (runStaged 2 [ElemBeh.converts 5, ElemBeh.panics]).panicked = true) ∧
    ((runStaged 2 [ElemBeh.converts 1, ElemBeh.fails, ElemBeh.converts 2]).handed =
      some [some 1, some 2] ∧
      (runStaged 2 [ElemBeh.converts 1, ElemBeh.fails, ElemBeh.converts 2]).destructed = []) :=
  ⟨⟨by decide,
    (c8_array_staging_drop_safety Nat 2 [ElemBeh.converts 5, ElemBeh.panics]).1 (by decide),
    by decide, by decide⟩,
   ⟨by decide,
    ((c8_array_staging_drop_safety Nat 2
        [ElemBeh.converts 1, ElemBeh.fails, ElemBeh.converts 2]).2.1
      [some 1, some 2] (by decide)).1⟩⟩

/-- Witness for C9: `as_float` is present on the `Int` variant through the
`Int → Float` widening. -/
theorem c9_accessor_presence_witness :
    (as_float (F := Unit) (fun _ => ()) (MyScalarValue.Int 5)).isSome = true :=
  ((c9_accessor_presence Unit (fun _ => ()) (MyScalarValue.Int 5)).2.2.2.2.1).mpr
    (Or.inl ⟨5, rfl⟩)

end Juniper
